import Mathlib

/-!
A shallow embedding of the `crypto-exchange-simulated` ledger engine
(`src/models/Transaction.ts`, `src/models/Block.ts`,
`src/controllers/MempoolController.ts`, `src/controllers/ChainController.ts`)
together with proofs of the specification claims.

Modelling conventions:
* JS numbers that the program uses as money, timestamps and nonces are
  modelled as `Int`; the mempool priority score, which is produced by a real
  division, is modelled as `ℚ`.
* The SHA-256 hex digest is abstracted as a function parameter
  `H : BlockHashInput → String`, where `BlockHashInput` carries exactly the
  fields serialized by `Block.calculateHash`.
* `Date.now()` and `Math.round(Math.random() * 999999999)` are threaded as
  explicit `Int` parameters.
* The mutable object state is threaded functionally: every mutating method
  returns the updated value.
-/

namespace CryptoSim

/-- Model of `TransactionType` enum from `Transaction.ts`. -/
inductive TransactionType
  | REGULAR
  | REWARD
  | GENESIS
  deriving DecidableEq

/-- Model of `Transaction` from `Transaction.ts`: amount, payer, payee, fee,
timestamp, type, optional signature. -/
structure Transaction where
  amount : Int
  payer : String
  payee : String
  fee : Int
  timestamp : Int
  type : TransactionType
  signature : Option String
  deriving DecidableEq

/-- Model of `Transaction.getTotalCost()`: amount + fee. -/
def Transaction.getTotalCost (t : Transaction) : Int :=
  t.amount + t.fee

/-- The record produced by `Transaction.toJSON()` (note: it omits `type`). -/
structure TxJSON where
  amount : Int
  payer : String
  payee : String
  fee : Int
  timestamp : Int
  signature : Option String
  deriving DecidableEq

/-- Model of `Transaction.toJSON()`. -/
def Transaction.toJSON (t : Transaction) : TxJSON :=
  ⟨t.amount, t.payer, t.payee, t.fee, t.timestamp, t.signature⟩

/-- Model of `Transaction.setSignature(signature)`. -/
def Transaction.setSignature (t : Transaction) (signature : String) : Transaction :=
  { t with signature := some signature }

/-- Model of `Transaction.createReward(minerAddress, rewardAmount)`; the transaction
timestamp defaults to `Date.now()`, threaded as `now`. -/
def Transaction.createReward (minerAddress : String) (rewardAmount : Int) (now : Int) : Transaction :=
  ⟨rewardAmount, "MINING_REWARD", minerAddress, 0, now, .REWARD, none⟩

/-- Model of `Transaction.createGenesis()`: 100 units from "genesis" to "satoshi". -/
def Transaction.createGenesis (now : Int) : Transaction :=
  ⟨100, "genesis", "satoshi", 0, now, .GENESIS, none⟩

/-- The object serialized by `Block.calculateHash()`:
`{prevHash, transactions: map toJSON, ts, nonce, minerAddress}`. -/
structure BlockHashInput where
  prevHash : String
  transactions : List TxJSON
  ts : Int
  nonce : Int
  minerAddress : String
  deriving DecidableEq

/-- Abstraction of `createHash('SHA256') ∘ JSON.stringify` as an arbitrary
function from the serialized block fields to a hex-digest string. -/
abbrev HashFn := BlockHashInput → String

/-- Model of `Block` from `Block.ts`; `hashCache` models the private `_hash` field
(`none` = `undefined`). -/
structure Block where
  prevHash : String
  transactions : List Transaction
  minerAddress : String
  ts : Int
  nonce : Int
  hashCache : Option String
  deriving DecidableEq

/-- Model of `Block.calculateHash()`. -/
def Block.calculateHash (H : HashFn) (b : Block) : String :=
  H ⟨b.prevHash, b.transactions.map Transaction.toJSON, b.ts, b.nonce, b.minerAddress⟩

/-- The `hash` getter: `if (this._hash) return this._hash; return
this.calculateHash()`.  JS truthiness: an empty cached string is falsy, so
the getter recomputes in that case. -/
def Block.hash (H : HashFn) (b : Block) : String :=
  match b.hashCache with
  | some h => if h = "" then b.calculateHash H else h
  | none => b.calculateHash H

/-- Model of `Block.setHash(hash)`. -/
def Block.setHash (b : Block) (h : String) : Block :=
  { b with hashCache := some h }

/-- Model of `Block.getTotalFees()`. -/
def Block.getTotalFees (b : Block) : Int :=
  (b.transactions.map Transaction.fee).sum

/-- Model of `Block.getTransactionCount()`. -/
def Block.getTransactionCount (b : Block) : Nat :=
  b.transactions.length

/-- Model of `IPendingTransaction` from `MempoolController.ts`. -/
structure PendingTransaction where
  transaction : Transaction
  priority : ℚ
  deriving DecidableEq

/-- Model of `MempoolController` state: pending list plus capacity bound. -/
structure MempoolController where
  pendingTransactions : List PendingTransaction
  maxPoolSize : Nat
  deriving DecidableEq

/-- Model of `MempoolController.calculatePriority(transaction)`:
`fee * 1000 / (age + 1)` with `age = (Date.now() - timestamp) / 1000`. -/
def MempoolController.calculatePriority (transaction : Transaction) (now : Int) : ℚ :=
  (transaction.fee : ℚ) * 1000 / (((now - transaction.timestamp : Int) : ℚ) / 1000 + 1)

/-- One insertion step of the stable descending sort used to model
`Array.prototype.sort((a, b) => b.priority - a.priority)`. -/
def insertByPriority (x : PendingTransaction) : List PendingTransaction → List PendingTransaction
  | [] => [x]
  | y :: ys => if x.priority < y.priority then y :: insertByPriority x ys else x :: y :: ys

/-- Model of `MempoolController.sortByPriority()`: stable sort, highest priority
first. -/
def MempoolController.sortByPriority : List PendingTransaction → List PendingTransaction
  | [] => []
  | x :: xs => insertByPriority x (MempoolController.sortByPriority xs)

/-- Model of `MempoolController.addTransaction(transaction)`.  When the pool is at
capacity the newcomer's *fee* is compared against the lowest resident's
*priority*; `pop` drops the last entry; on admission the entry is pushed
and the pool re-sorted.  (The `none` branch is unreachable whenever
`maxPoolSize > 0`; the JS code would throw there.) -/
def MempoolController.addTransaction (m : MempoolController) (transaction : Transaction)
    (now : Int) : Bool × MempoolController :=
  if m.pendingTransactions.length ≥ m.maxPoolSize then
    match m.pendingTransactions.getLast? with
    | none => (false, m)
    | some lowest =>
      if (transaction.fee : ℚ) ≤ lowest.priority then (false, m)
      else
        (true, { m with pendingTransactions :=
          MempoolController.sortByPriority (m.pendingTransactions.dropLast ++
            [⟨transaction, MempoolController.calculatePriority transaction now⟩]) })
  else
    (true, { m with pendingTransactions :=
      MempoolController.sortByPriority (m.pendingTransactions ++
        [⟨transaction, MempoolController.calculatePriority transaction now⟩]) })

/-- Model of `MempoolController.getTransactionsForBlock(maxTransactions)`:
`slice(0, max)` is returned, `slice(max)` is kept. -/
def MempoolController.getTransactionsForBlock (m : MempoolController) (maxTransactions : Nat) :
    List Transaction × MempoolController :=
  ((m.pendingTransactions.take maxTransactions).map PendingTransaction.transaction,
   { m with pendingTransactions := m.pendingTransactions.drop maxTransactions })

/-- Model of `MempoolController.getPendingCount()`. -/
def MempoolController.getPendingCount (m : MempoolController) : Nat :=
  m.pendingTransactions.length

/-- Model of `Map.prototype.get` with the controller's `?? 0` default folded in by
callers; association list keyed by address, first entry wins. -/
def mapGet : List (String × Int) → String → Option Int
  | [], _ => none
  | (k', v') :: rest, k => if k' = k then some v' else mapGet rest k

/-- Model of `Map.prototype.set`: replace the first entry with this key, else append. -/
def mapSet : List (String × Int) → String → Int → List (String × Int)
  | [], k, v => [(k, v)]
  | (k', v') :: rest, k, v =>
    if k' = k then (k', v) :: rest else (k', v') :: mapSet rest k v

/-- Model of `ChainController` state (the singleton's fields): chain, mempool,
balance table, difficulty.  `miningReward` and `maxTransactionsPerBlock`
are the fixed constants 50 and 10. -/
structure ChainController where
  chain : List Block
  mempool : MempoolController
  balances : List (String × Int)
  difficulty : Nat
  deriving DecidableEq

/-- Model of `miningReward` constant (50). -/
def miningReward : Int := 50

/-- Model of `maxTransactionsPerBlock` constant (10). -/
def maxTransactionsPerBlock : Nat := 10

/-- Model of `ChainController.getBalance(address)`: `balances.get(address) ?? 0`. -/
def ChainController.getBalance (c : ChainController) (address : String) : Int :=
  (mapGet c.balances address).getD 0

/-- Model of `ChainController.updateBalance(address, amount)`. -/
def updateBalance (bal : List (String × Int)) (address : String) (amount : Int) :
    List (String × Int) :=
  mapSet bal address ((mapGet bal address).getD 0 + amount)

/-- The constructor plus `createGenesisBlock()`: chain = [genesis block],
empty mempool of capacity 100, `updateBalance('satoshi', 100)`,
difficulty 4.  The two `Date.now()` readings and the random nonce are
parameters. -/
def initialController (txTs blockTs nonce0 : Int) : ChainController :=
  { chain := [⟨"", [Transaction.createGenesis txTs], "GENESIS", blockTs, nonce0, none⟩]
    mempool := { pendingTransactions := [], maxPoolSize := 100 }
    balances := updateBalance [] "satoshi" 100
    difficulty := 4 }

/-- Model of `ChainController.getLastBlock()`: `chain[chain.length - 1]`.  The
default is never reached because the chain always contains the genesis
block. -/
def ChainController.getLastBlock (c : ChainController) : Block :=
  c.chain.getLastD ⟨"", [], "", 0, 0, none⟩

/-- Model of `ChainController.getChainLength()`. -/
def ChainController.getChainLength (c : ChainController) : Nat :=
  c.chain.length

/-- Model of `ChainController.getPendingTransactionCount()`. -/
def ChainController.getPendingTransactionCount (c : ChainController) : Nat :=
  c.mempool.getPendingCount

/-- The `{valid, reason?}` record returned by `validateTransaction`. -/
structure ValidationResult where
  valid : Bool
  reason : Option String
  deriving DecidableEq

/-- Model of `ChainController.validateTransaction(transaction)`: REWARD and GENESIS
skip every check; REGULAR is checked for balance, positive amount and
non-negative fee — no signature check appears anywhere in this method. -/
def ChainController.validateTransaction (c : ChainController) (transaction : Transaction) :
    ValidationResult :=
  if transaction.type = .REWARD ∨ transaction.type = .GENESIS then ⟨true, none⟩
  else
    let senderBalance := c.getBalance transaction.payer
    let totalCost := transaction.getTotalCost
    if senderBalance < totalCost then
      ⟨false, some ("Insufficient balance. Has " ++ toString senderBalance ++
        ", needs " ++ toString totalCost)⟩
    else if transaction.amount ≤ 0 then
      ⟨false, some "Transaction amount must be positive"⟩
    else if transaction.fee < 0 then
      ⟨false, some "Transaction fee cannot be negative"⟩
    else ⟨true, none⟩

/-- Model of `ChainController.addTransactionToMempool(transaction)`: validate, then
forward to the mempool. -/
def ChainController.addTransactionToMempool (c : ChainController) (transaction : Transaction)
    (now : Int) : Bool × ChainController :=
  if (c.validateTransaction transaction).valid then
    let r := c.mempool.addTransaction transaction now
    (r.1, { c with mempool := r.2 })
  else (false, c)

/-- Model of `IMiningResult` from `ChainController.ts`. -/
structure IMiningResult where
  solution : Int
  attempts : Nat
  hash : String
  deriving DecidableEq

/-- Model of `'0'.repeat(difficulty)` as a character list. -/
def zeroTarget (difficulty : Nat) : List Char :=
  List.replicate difficulty '0'

/-- The proof-of-work loop of `ChainController.mine`: each round adds the
current `solution` to the nonce, recomputes the hash and tests
`hash.substring(0, difficulty) === target`; `solution` then increments.
The loop is given explicit fuel (the source loops forever until found). -/
def mineAux (H : HashFn) (difficulty : Nat) :
    Nat → Block → Int → Nat → Option (Block × IMiningResult)
  | 0, _, _, _ => none
  | fuel + 1, block, solution, attempts =>
    let b := { block with nonce := block.nonce + solution }
    let hash := b.calculateHash H
    if hash.data.take difficulty = zeroTarget difficulty then
      some (b.setHash hash, ⟨solution, attempts + 1, hash⟩)
    else mineAux H difficulty fuel b (solution + 1) (attempts + 1)

/-- Model of `ChainController.mine(block)`: starts with `solution = 1`. -/
def ChainController.mine (H : HashFn) (c : ChainController) (fuel : Nat) (block : Block) :
    Option (Block × IMiningResult) :=
  mineAux H c.difficulty fuel block 1 0

/-- One step of `processBlockTransactions`: REGULAR debits payer by
`amount + fee` and credits payee by `amount`; REWARD/GENESIS only credit
the payee. -/
def processTx (bal : List (String × Int)) (transaction : Transaction) :
    List (String × Int) :=
  if transaction.type ≠ .REWARD ∧ transaction.type ≠ .GENESIS then
    updateBalance
      (updateBalance bal transaction.payer (-(transaction.amount + transaction.fee)))
      transaction.payee transaction.amount
  else
    updateBalance bal transaction.payee transaction.amount

/-- Model of `ChainController.processBlockTransactions(block)`. -/
def processBlockTransactions (block : Block) (bal : List (String × Int)) :
    List (String × Int) :=
  block.transactions.foldl processTx bal

/-- Model of `ChainController.mineBlock(minerAddress)`: drain up to 10 transactions
if any are pending, sum their fees, append the coinbase REWARD of
`miningReward + totalFees`, build a block linked to the tip's hash, run
proof-of-work, append, and update balances.  `rewardTs`, `blockTs` and
`nonce0` thread the two `Date.now()` readings and the random nonce. -/
def ChainController.mineBlock (H : HashFn) (fuel : Nat) (c : ChainController)
    (minerAddress : String) (rewardTs blockTs nonce0 : Int) :
    Option (ChainController × Block) :=
  let pendingCount := c.mempool.getPendingCount
  let drained :=
    if pendingCount > 0 then c.mempool.getTransactionsForBlock maxTransactionsPerBlock
    else ([], c.mempool)
  let transactions := drained.1
  let totalFees := (transactions.map Transaction.fee).sum
  let txs := transactions ++ [Transaction.createReward minerAddress (miningReward + totalFees) rewardTs]
  let newBlock : Block := ⟨c.getLastBlock.hash H, txs, minerAddress, blockTs, nonce0, none⟩
  match ChainController.mine H c fuel newBlock with
  | none => none
  | some (minedBlock, _) =>
    some ({ c with
              chain := c.chain ++ [minedBlock]
              mempool := drained.2
              balances := processBlockTransactions minedBlock c.balances },
          minedBlock)

/-- The body of the `isChainValid` loop from index 1 on: link check against
the previous block's `hash` getter, then the difficulty check
`hash.startsWith(target)` with the difficulty read at validation time. -/
def validFrom (H : HashFn) (target : List Char) : Block → List Block → Bool
  | _, [] => true
  | prev, b :: rest =>
    decide (b.prevHash = prev.hash H) && target.isPrefixOf (b.hash H).data &&
      validFrom H target b rest

/-- Model of `ChainController.isChainValid()`. -/
def ChainController.isChainValid (H : HashFn) (c : ChainController) : Bool :=
  match c.chain with
  | [] => true
  | b :: rest => validFrom H (zeroTarget c.difficulty) b rest

/-- Model of `ChainController.setDifficulty(difficulty)`: clamps to [1, 8]. -/
def ChainController.setDifficulty (c : ChainController) (difficulty : Int) : ChainController :=
  { c with difficulty := (max 1 (min 8 difficulty)).toNat }

/-- Model of `IBalanceHistory` from `ChainController.ts`. -/
structure IBalanceHistory where
  address : String
  balance : Int
  timestamp : Int
  blockHeight : Nat
  deriving DecidableEq

/-- One transaction step of the `getBalanceHistory` replay: *any* transaction
whose payer is the address is debited `getTotalCost()`, any whose payee is
the address is credited `amount` — no exemption for REWARD/GENESIS. -/
def historyTxStep (address : String) (balance : Int) (transaction : Transaction) : Int :=
  let b1 := if transaction.payer = address then balance - transaction.getTotalCost else balance
  if transaction.payee = address then b1 + transaction.amount else b1

/-- The block loop of `getBalanceHistory`: running balance plus one history
entry per block height. -/
def balanceHistoryAux (address : String) :
    List Block → Int → Nat → List IBalanceHistory
  | [], _, _ => []
  | b :: rest, balance, i =>
    let balance' := b.transactions.foldl (historyTxStep address) balance
    ⟨address, balance', b.ts, i⟩ :: balanceHistoryAux address rest balance' (i + 1)

/-- Model of `ChainController.getBalanceHistory(address)`. -/
def ChainController.getBalanceHistory (c : ChainController) (address : String) :
    List IBalanceHistory :=
  balanceHistoryAux address c.chain 0 0

/-- States reachable through the engine's public mutating API from a fresh
controller, with submitted transactions restricted by `P` (instantiated
with `fun _ => True` for arbitrary submissions, or with
`tx.type = REGULAR` for the claims that quantify over REGULAR traffic).
All `Date.now()` readings, random nonces and proof-of-work fuel are
arbitrary. -/
inductive Reaches (H : HashFn) (P : Transaction → Prop) : ChainController → Prop
  | init (txTs blockTs nonce0 : Int) :
      Reaches H P (initialController txTs blockTs nonce0)
  | submit (c : ChainController) (transaction : Transaction) (now : Int)
      (hc : Reaches H P c) (hP : P transaction) :
      Reaches H P (c.addTransactionToMempool transaction now).2
  | mineStep (c c' : ChainController) (b : Block) (fuel : Nat) (minerAddress : String)
      (rewardTs blockTs nonce0 : Int) (hc : Reaches H P c)
      (hm : ChainController.mineBlock H fuel c minerAddress rewardTs blockTs nonce0 = some (c', b)) :
      Reaches H P c'
  | setDiff (c : ChainController) (d : Int) (hc : Reaches H P c) :
      Reaches H P (c.setDifficulty d)

end CryptoSim

namespace CryptoSim

/-! ### Lemmas about the balance table (`Map` model) -/

theorem mapGet_mapSet (bal : List (String × Int)) (k : String) (v : Int) (k' : String) :
    mapGet (mapSet bal k v) k' = if k' = k then some v else mapGet bal k' := by
  induction bal with
  | nil =>
    simp only [mapSet, mapGet]
    by_cases h : k' = k
    · subst h; simp
    · rw [if_neg (fun h' => h h'.symm), if_neg h]
  | cons hd tl ih =>
    obtain ⟨a, b⟩ := hd
    simp only [mapSet]
    by_cases hak : a = k
    · subst hak
      rw [if_pos rfl]
      by_cases hk' : a = k'
      · subst hk'; simp [mapGet]
      · simp only [mapGet, if_neg hk']
        rw [if_neg (fun h' => hk' h'.symm)]
    · rw [if_neg hak]
      by_cases hk' : a = k'
      · subst hk'
        have h1 : mapGet ((a, b) :: mapSet tl k v) a = some b := by simp [mapGet]
        have h2 : mapGet ((a, b) :: tl) a = some b := by simp [mapGet]
        rw [h1, if_neg hak, h2]
      · simp only [mapGet, if_neg hk', ih]

theorem getD_mapGet_updateBalance (bal : List (String × Int)) (k : String) (d : Int)
    (k' : String) :
    (mapGet (updateBalance bal k d) k').getD 0 =
      (mapGet bal k').getD 0 + (if k' = k then d else 0) := by
  unfold updateBalance
  rw [mapGet_mapSet]
  by_cases h : k' = k
  · subst h; simp
  · simp [h]

theorem sum_updateBalance (bal : List (String × Int)) (k : String) (d : Int) :
    ((updateBalance bal k d).map Prod.snd).sum = (bal.map Prod.snd).sum + d := by
  induction bal with
  | nil => simp [updateBalance, mapSet, mapGet]
  | cons hd tl ih =>
    obtain ⟨a, b⟩ := hd
    by_cases hak : a = k
    · simp only [updateBalance, mapGet, if_pos hak, mapSet, Option.getD_some,
        List.map_cons, List.sum_cons]
      ring
    · simp only [updateBalance, mapGet, if_neg hak, mapSet, List.map_cons, List.sum_cons]
      unfold updateBalance at ih
      rw [ih]
      ring

/-! ### Per-transaction balance deltas -/

/-- The delta `processBlockTransactions` applies to `address` for one
transaction. -/
def procDelta (address : String) (t : Transaction) : Int :=
  if t.type ≠ .REWARD ∧ t.type ≠ .GENESIS then
    (if address = t.payer then -(t.amount + t.fee) else 0) +
      (if address = t.payee then t.amount else 0)
  else (if address = t.payee then t.amount else 0)

/-- The per-transaction delta of the `getBalanceHistory` replay. -/
def historyDelta (address : String) (t : Transaction) : Int :=
  (if t.payer = address then -t.getTotalCost else 0) +
    (if t.payee = address then t.amount else 0)

/-- The delta one transaction contributes to the sum of all balances under
`processBlockTransactions`. -/
def procSumDelta (t : Transaction) : Int :=
  if t.type ≠ .REWARD ∧ t.type ≠ .GENESIS then -t.fee else t.amount

theorem getD_processTx (bal : List (String × Int)) (t : Transaction) (k : String) :
    (mapGet (processTx bal t) k).getD 0 = (mapGet bal k).getD 0 + procDelta k t := by
  unfold processTx procDelta
  by_cases h : t.type ≠ .REWARD ∧ t.type ≠ .GENESIS
  · rw [if_pos h, if_pos h, getD_mapGet_updateBalance, getD_mapGet_updateBalance]
    ring
  · rw [if_neg h, if_neg h, getD_mapGet_updateBalance]

theorem sum_processTx (bal : List (String × Int)) (t : Transaction) :
    ((processTx bal t).map Prod.snd).sum = (bal.map Prod.snd).sum + procSumDelta t := by
  unfold processTx procSumDelta
  by_cases h : t.type ≠ .REWARD ∧ t.type ≠ .GENESIS
  · rw [if_pos h, if_pos h, sum_updateBalance, sum_updateBalance]
    ring
  · rw [if_neg h, if_neg h, sum_updateBalance]

theorem getD_processBlock (txs : List Transaction) :
    ∀ (bal : List (String × Int)) (k : String),
    (mapGet (txs.foldl processTx bal) k).getD 0 =
      (mapGet bal k).getD 0 + (txs.map (procDelta k)).sum := by
  induction txs with
  | nil => intro bal k; simp
  | cons t ts ih =>
    intro bal k
    simp only [List.foldl_cons, List.map_cons, List.sum_cons]
    rw [ih, getD_processTx]
    ring

theorem sum_processBlock (txs : List Transaction) :
    ∀ bal : List (String × Int),
    ((txs.foldl processTx bal).map Prod.snd).sum =
      (bal.map Prod.snd).sum + (txs.map procSumDelta).sum := by
  induction txs with
  | nil => intro bal; simp
  | cons t ts ih =>
    intro bal
    simp only [List.foldl_cons, List.map_cons, List.sum_cons]
    rw [ih, sum_processTx]
    ring

theorem historyTxStep_eq (address : String) (balance : Int) (t : Transaction) :
    historyTxStep address balance t = balance + historyDelta address t := by
  unfold historyTxStep historyDelta
  split_ifs <;> ring

theorem foldl_historyTxStep (address : String) (txs : List Transaction) :
    ∀ balance : Int,
    txs.foldl (historyTxStep address) balance =
      balance + (txs.map (historyDelta address)).sum := by
  induction txs with
  | nil => intro balance; simp
  | cons t ts ih =>
    intro balance
    simp only [List.foldl_cons, List.map_cons, List.sum_cons]
    rw [ih, historyTxStep_eq]
    ring

end CryptoSim

namespace CryptoSim

/-! ### Lemmas about the mempool priority sort -/

/-- The descending pairwise-order predicate maintained by `sortByPriority`. -/
def sortedDesc (l : List PendingTransaction) : Prop :=
  l.Pairwise (fun a b => b.priority ≤ a.priority)

theorem insertByPriority_perm (x : PendingTransaction) (l : List PendingTransaction) :
    List.Perm (insertByPriority x l) (x :: l) := by
  induction l with
  | nil => simp [insertByPriority]
  | cons y ys ih =>
    simp only [insertByPriority]
    split
    · exact (ih.cons y).trans (List.Perm.swap x y ys)
    · exact List.Perm.refl _

theorem sortByPriority_perm (l : List PendingTransaction) :
    List.Perm (MempoolController.sortByPriority l) l := by
  induction l with
  | nil => simp [MempoolController.sortByPriority]
  | cons x xs ih =>
    simp only [MempoolController.sortByPriority]
    exact (insertByPriority_perm x _).trans (ih.cons x)

theorem mem_sortByPriority {pt : PendingTransaction} {l : List PendingTransaction} :
    pt ∈ MempoolController.sortByPriority l ↔ pt ∈ l :=
  (sortByPriority_perm l).mem_iff

theorem insertByPriority_sorted {x : PendingTransaction} {l : List PendingTransaction}
    (h : sortedDesc l) : sortedDesc (insertByPriority x l) := by
  induction l with
  | nil => simp [insertByPriority, sortedDesc]
  | cons y ys ih =>
    simp only [sortedDesc, List.pairwise_cons] at h
    simp only [insertByPriority]
    split
    · rename_i hlt
      simp only [sortedDesc, List.pairwise_cons]
      constructor
      · intro z hz
        rw [(insertByPriority_perm x ys).mem_iff, List.mem_cons] at hz
        rcases hz with hz | hz
        · subst hz; exact le_of_lt hlt
        · exact h.1 z hz
      · exact ih h.2
    · rename_i hge
      simp only [sortedDesc, List.pairwise_cons]
      refine ⟨?_, ?_⟩
      · intro z hz
        rw [List.mem_cons] at hz
        rcases hz with hz | hz
        · subst hz; exact le_of_not_lt hge
        · exact le_trans (h.1 z hz) (le_of_not_lt hge)
      · exact ⟨h.1, h.2⟩

theorem sortByPriority_sorted (l : List PendingTransaction) :
    sortedDesc (MempoolController.sortByPriority l) := by
  induction l with
  | nil => simp [MempoolController.sortByPriority, sortedDesc]
  | cons x xs ih =>
    exact insertByPriority_sorted ih

/-- Whatever branch `addTransaction` takes, every resident of the resulting
pool either was already resident or is the submitted transaction. -/
theorem addTransaction_mem {m : MempoolController} {t : Transaction} {now : Int}
    {pt : PendingTransaction}
    (h : pt ∈ ((m.addTransaction t now).2).pendingTransactions) :
    pt ∈ m.pendingTransactions ∨ pt.transaction = t := by
  unfold MempoolController.addTransaction at h
  split at h
  · split at h
    · exact Or.inl h
    · split at h
      · exact Or.inl h
      · simp only at h
        rw [mem_sortByPriority, List.mem_append, List.mem_singleton] at h
        rcases h with h | h
        · exact Or.inl (List.dropLast_sublist _ |>.subset h)
        · subst h; exact Or.inr rfl
  · simp only at h
    rw [mem_sortByPriority, List.mem_append, List.mem_singleton] at h
    rcases h with h | h
    · exact Or.inl h
    · subst h; exact Or.inr rfl

/-! ### Lemmas about the proof-of-work loop -/

theorem mineAux_spec {H : HashFn} {difficulty : Nat} :
    ∀ {fuel : Nat} {block : Block} {solution : Int} {attempts : Nat}
      {b : Block} {r : IMiningResult},
    mineAux H difficulty fuel block solution attempts = some (b, r) →
    b.prevHash = block.prevHash ∧ b.transactions = block.transactions ∧
      b.minerAddress = block.minerAddress ∧ b.ts = block.ts ∧
      b.hashCache = some r.hash ∧ r.hash = b.calculateHash H ∧
      r.hash.data.take difficulty = zeroTarget difficulty := by
  intro fuel
  induction fuel with
  | zero => intro block solution attempts b r h; simp [mineAux] at h
  | succ f ih =>
    intro block solution attempts b r h
    simp only [mineAux] at h
    split at h
    · rename_i hfound
      rw [Option.some_inj, Prod.mk.injEq] at h
      obtain ⟨hb, hr⟩ := h
      subst hb; subst hr
      exact ⟨rfl, rfl, rfl, rfl, rfl, rfl, hfound⟩
    · have hres := ih h
      exact hres

/-- The `hash` getter of a mined block returns the recorded digest: either
the cache is honored, or (empty digest) the getter recomputes the same
value. -/
theorem mined_hash {H : HashFn} {difficulty fuel : Nat} {block b : Block}
    {solution : Int} {attempts : Nat} {r : IMiningResult}
    (h : mineAux H difficulty fuel block solution attempts = some (b, r)) :
    b.hash H = r.hash := by
  obtain ⟨-, -, -, -, hc, hcalc, -⟩ := mineAux_spec h
  simp only [Block.hash, hc]
  split
  · exact hcalc.symm
  · rfl

end CryptoSim

namespace CryptoSim

/-! ### Chain-link machinery -/

/-- The value of the `drained` intermediate of `mineBlock`. -/
def drainedPair (c : ChainController) : List Transaction × MempoolController :=
  if c.mempool.getPendingCount > 0 then
    c.mempool.getTransactionsForBlock maxTransactionsPerBlock
  else ([], c.mempool)

theorem addTransactionToMempool_fields (c : ChainController) (t : Transaction) (now : Int) :
    ((c.addTransactionToMempool t now).2).chain = c.chain ∧
    ((c.addTransactionToMempool t now).2).balances = c.balances ∧
    ((c.addTransactionToMempool t now).2).difficulty = c.difficulty ∧
    ((c.addTransactionToMempool t now).2).mempool.maxPoolSize = c.mempool.maxPoolSize := by
  unfold ChainController.addTransactionToMempool
  split
  · refine ⟨rfl, rfl, rfl, ?_⟩
    show ((c.mempool.addTransaction t now).2).maxPoolSize = c.mempool.maxPoolSize
    unfold MempoolController.addTransaction
    split
    · split <;> first | rfl | (split <;> rfl)
    · rfl
  · exact ⟨rfl, rfl, rfl, rfl⟩

theorem setDifficulty_fields (c : ChainController) (d : Int) :
    (c.setDifficulty d).chain = c.chain ∧
    (c.setDifficulty d).balances = c.balances ∧
    (c.setDifficulty d).mempool = c.mempool := by
  exact ⟨rfl, rfl, rfl⟩

/-- Everything `mineBlock` does on success, read off the source. -/
theorem mineBlock_spec {H : HashFn} {fuel : Nat} {c c' : ChainController} {a : String}
    {rTs bTs n0 : Int} {b : Block}
    (hm : ChainController.mineBlock H fuel c a rTs bTs n0 = some (c', b)) :
    c'.chain = c.chain ++ [b] ∧
    b.prevHash = c.getLastBlock.hash H ∧
    c'.balances = processBlockTransactions b c.balances ∧
    c'.difficulty = c.difficulty ∧
    c'.mempool = (drainedPair c).2 ∧
    b.transactions = (drainedPair c).1 ++
      [Transaction.createReward a (miningReward + (((drainedPair c).1.map Transaction.fee).sum)) rTs] ∧
    b.minerAddress = a ∧ b.ts = bTs ∧
    (zeroTarget c.difficulty).isPrefixOf (b.hash H).data = true := by
  unfold ChainController.mineBlock at hm
  simp only at hm
  split at hm
  · exact absurd hm (by simp)
  · rename_i mb res hmine
    rw [Option.some_inj, Prod.mk.injEq] at hm
    obtain ⟨hc', hb⟩ := hm
    subst hc'; subst hb
    obtain ⟨hprev, htx, hminer, hts, -, -, htake⟩ := mineAux_spec hmine
    have hhash : mb.hash H = res.hash := mined_hash hmine
    refine ⟨rfl, ?_, rfl, rfl, rfl, ?_, ?_, ?_, ?_⟩
    · exact hprev
    · exact htx
    · exact hminer
    · exact hts
    · rw [hhash]
      simp only [List.isPrefixOf_iff_prefix, List.prefix_iff_eq_take, zeroTarget,
        List.length_replicate]
      rw [zeroTarget] at htake
      exact htake.symm

/-- Adjacent hash links, stated over list indices. -/
def linkedAt (H : HashFn) (l : List Block) : Prop :=
  ∀ i, (h : i + 1 < l.length) → (l[i + 1]).prevHash = Block.hash H l[i]

theorem linkedAt_append {H : HashFn} {l : List Block} {x : Block} (hl : l ≠ [])
    (h : linkedAt H l) (hx : x.prevHash = Block.hash H (l.getLast hl)) :
    linkedAt H (l ++ [x]) := by
  intro i hi
  have hia : i < (l ++ [x]).length := by omega
  have hlen : i + 1 < l.length + 1 := by
    rw [List.length_append, List.length_singleton] at hi
    exact hi
  by_cases hlt : i + 1 < l.length
  · have hit : i < l.length := by omega
    have h1 : (l ++ [x])[i + 1] = l[i + 1] := List.getElem_append_left hlt
    have h2 : (l ++ [x])[i] = l[i] := List.getElem_append_left hit
    rw [h1, h2]
    exact h i hlt
  · have hi1 : i + 1 = l.length := by omega
    have hle : l.length ≤ i + 1 := by omega
    have hb : i + 1 - l.length < [x].length := by
      simp only [List.length_singleton]
      omega
    have hgr : (l ++ [x])[i + 1] = [x][i + 1 - l.length] := List.getElem_append_right hle
    have hx0 : [x][i + 1 - l.length] = x := by
      have hz : i + 1 - l.length = 0 := by omega
      simp only [hz, List.getElem_cons_zero]
    have hit : i < l.length := by omega
    have h2 : (l ++ [x])[i] = l[i] := List.getElem_append_left hit
    rw [hgr, hx0, h2, hx, List.getLast_eq_getElem]
    have hieq : i = l.length - 1 := by omega
    subst hieq
    rfl

/-- Reachable controllers have a nonempty chain whose adjacent blocks are
hash-linked. -/
theorem reaches_chain {H : HashFn} {P : Transaction → Prop} {c : ChainController}
    (h : Reaches H P c) : c.chain ≠ [] ∧ linkedAt H c.chain := by
  induction h with
  | init txTs blockTs nonce0 =>
    refine ⟨by simp [initialController], ?_⟩
    intro i hi
    simp [initialController] at hi
  | submit c tx now hc hP ih =>
    rw [(addTransactionToMempool_fields c tx now).1]
    exact ih
  | mineStep c c' b fuel a rTs bTs n0 hc hm ih =>
    obtain ⟨hchain, hprev, -, -, -, -, -, -, -⟩ := mineBlock_spec hm
    refine ⟨by rw [hchain]; simp, ?_⟩
    rw [hchain]
    refine linkedAt_append ih.1 ih.2 ?_
    rw [hprev]
    unfold ChainController.getLastBlock
    rw [List.getLastD_eq_getLast?, List.getLast?_eq_getLast _ ih.1]
    rfl
  | setDiff c d hc ih =>
    rw [(setDifficulty_fields c d).1]
    exact ih

/-- Index characterization of the `isChainValid` loop body, stated over
the indices of the full chain `prev :: l`. -/
theorem validFrom_iff (H : HashFn) (target : List Char) :
    ∀ (l : List Block) (prev : Block),
    validFrom H target prev l = true ↔
      ∀ i, (h : i + 1 < (prev :: l).length) →
        ((prev :: l)[i + 1]).prevHash = Block.hash H ((prev :: l)[i]) ∧
        target.isPrefixOf (Block.hash H ((prev :: l)[i + 1])).data = true := by
  intro l
  induction l with
  | nil =>
    intro prev
    constructor
    · intro _ i hi
      simp only [List.length_cons, List.length_nil] at hi
      omega
    · intro _
      rfl
  | cons b rest ih =>
    intro prev
    simp only [validFrom, Bool.and_eq_true, decide_eq_true_eq]
    constructor
    · rintro ⟨⟨hlink, hpre⟩, hrest⟩ i hi
      match i with
      | 0 => exact ⟨hlink, hpre⟩
      | j + 1 =>
        have hj : j + 1 < (b :: rest).length := by
          simp only [List.length_cons] at hi ⊢
          omega
        have hres := (ih b).mp hrest j hj
        simpa using hres
    · intro hall
      refine ⟨⟨?_, ?_⟩, ?_⟩
      · exact (hall 0 (by simp)).1
      · exact (hall 0 (by simp)).2
      · rw [ih b]
        intro j hj
        have hj' : j + 1 + 1 < (prev :: b :: rest).length := by
          simp only [List.length_cons] at hj ⊢
          omega
        have hres := hall (j + 1) hj'
        simpa using hres

end CryptoSim

namespace CryptoSim

/-! ### Supply accounting -/

/-- Total REWARD amounts credited by one block. -/
def blockRewardCredits (b : Block) : Int :=
  (b.transactions.map (fun t => if t.type = .REWARD then t.amount else 0)).sum

/-- Total REWARD amounts credited over a chain. -/
def chainRewardCredits (l : List Block) : Int :=
  (l.map blockRewardCredits).sum

/-- Total fees of REGULAR transactions in one block. -/
def blockRegularFees (b : Block) : Int :=
  (b.transactions.map (fun t => if t.type = .REGULAR then t.fee else 0)).sum

/-- Total fees of REGULAR transactions over a chain. -/
def chainRegularFees (l : List Block) : Int :=
  (l.map blockRegularFees).sum

/-- Sum of all balances in the balance table. -/
def sumBalances (c : ChainController) : Int :=
  (c.balances.map Prod.snd).sum

/-- The cumulative balance the `getBalanceHistory` replay assigns to an
address over a chain. -/
def replayBalance (address : String) (l : List Block) : Int :=
  (l.map (fun b => (b.transactions.map (historyDelta address)).sum)).sum

theorem procSum_regular {txs : List Transaction} (h : ∀ t ∈ txs, t.type = .REGULAR) :
    (txs.map procSumDelta).sum = -((txs.map Transaction.fee).sum) := by
  induction txs with
  | nil => simp
  | cons t ts ih =>
    simp only [List.map_cons, List.sum_cons]
    rw [ih (fun x hx => h x (List.mem_cons_of_mem t hx))]
    have ht := h t (List.mem_cons_self t ts)
    unfold procSumDelta
    rw [if_pos (by rw [ht]; exact ⟨by decide, by decide⟩)]
    ring

theorem rewardCredits_regular {txs : List Transaction} (h : ∀ t ∈ txs, t.type = .REGULAR) :
    (txs.map (fun t => if t.type = .REWARD then t.amount else 0)).sum = 0 := by
  induction txs with
  | nil => simp
  | cons t ts ih =>
    simp only [List.map_cons, List.sum_cons]
    rw [ih (fun x hx => h x (List.mem_cons_of_mem t hx))]
    have ht := h t (List.mem_cons_self t ts)
    rw [if_neg (by rw [ht]; decide)]
    simp

theorem regularFees_regular {txs : List Transaction} (h : ∀ t ∈ txs, t.type = .REGULAR) :
    (txs.map (fun t => if t.type = .REGULAR then t.fee else 0)).sum =
      (txs.map Transaction.fee).sum := by
  induction txs with
  | nil => simp
  | cons t ts ih =>
    simp only [List.map_cons, List.sum_cons]
    rw [ih (fun x hx => h x (List.mem_cons_of_mem t hx))]
    have ht := h t (List.mem_cons_self t ts)
    rw [if_pos ht]

theorem ite_swap_eq {p q : String} {x y : Int} :
    (if p = q then x else y) = if q = p then x else y := by
  by_cases h : p = q
  · rw [if_pos h, if_pos h.symm]
  · rw [if_neg h, if_neg (fun h' => h h'.symm)]

/-- The incremental update and the replay apply the same per-transaction
delta, except a REWARD/GENESIS transaction's payer, which only the replay
debits. -/
theorem procDelta_eq_historyDelta {address : String} {t : Transaction}
    (h : t.type = .REGULAR ∨ t.payer ≠ address) :
    procDelta address t = historyDelta address t := by
  unfold procDelta historyDelta Transaction.getTotalCost
  by_cases hreg : t.type ≠ .REWARD ∧ t.type ≠ .GENESIS
  · rw [if_pos hreg]
    have e1 : (if t.payer = address then -(t.amount + t.fee) else 0) =
        (if address = t.payer then -(t.amount + t.fee) else 0) := ite_swap_eq
    have e2 : (if t.payee = address then t.amount else 0) =
        (if address = t.payee then t.amount else 0) := ite_swap_eq
    rw [e1, e2]
  · rw [if_neg hreg]
    have hpayer : t.payer ≠ address := by
      rcases h with h | h
      · exact absurd (by rw [h]; exact ⟨by decide, by decide⟩) hreg
      · exact h
    have e2 : (if t.payee = address then t.amount else 0) =
        (if address = t.payee then t.amount else 0) := ite_swap_eq
    rw [if_neg hpayer, e2, zero_add]

theorem procDelta_list_eq {address : String} {txs : List Transaction}
    (h : ∀ t ∈ txs, t.type = .REGULAR ∨ t.payer ≠ address) :
    (txs.map (procDelta address)).sum = (txs.map (historyDelta address)).sum := by
  induction txs with
  | nil => simp
  | cons t ts ih =>
    simp only [List.map_cons, List.sum_cons]
    rw [ih (fun x hx => h x (List.mem_cons_of_mem t hx)),
      procDelta_eq_historyDelta (h t (List.mem_cons_self t ts))]

theorem addTransactionToMempool_mem {c : ChainController} {t : Transaction} {now : Int}
    {pt : PendingTransaction}
    (h : pt ∈ ((c.addTransactionToMempool t now).2).mempool.pendingTransactions) :
    pt ∈ c.mempool.pendingTransactions ∨ pt.transaction = t := by
  unfold ChainController.addTransactionToMempool at h
  split at h
  · exact addTransaction_mem h
  · exact Or.inl h

end CryptoSim

namespace CryptoSim

/-- Drained transactions come from the pool and keep its REGULAR-only
character. -/
theorem drainedPair_regular {c : ChainController}
    (hpool : ∀ pt ∈ c.mempool.pendingTransactions, pt.transaction.type = .REGULAR) :
    ∀ t ∈ (drainedPair c).1, t.type = .REGULAR := by
  intro t ht
  unfold drainedPair at ht
  by_cases hpc : c.mempool.getPendingCount > 0
  · rw [if_pos hpc] at ht
    unfold MempoolController.getTransactionsForBlock at ht
    simp only [List.mem_map] at ht
    obtain ⟨pt, hpt, hpt2⟩ := ht
    rw [← hpt2]
    exact hpool pt ((List.take_sublist _ _).subset hpt)
  · rw [if_neg hpc] at ht
    simp at ht

/-- Master invariant over REGULAR-only traffic: the mempool holds only
REGULAR transactions, the balance sum tracks 100 plus REWARD credits minus
REGULAR fees, and away from the synthetic payers the balance table agrees
with the history replay. -/
theorem reachesRegular_inv {H : HashFn} {P : Transaction → Prop} {c : ChainController}
    (hP : ∀ t, P t → t.type = .REGULAR) (h : Reaches H P c) :
    (∀ pt ∈ c.mempool.pendingTransactions, pt.transaction.type = .REGULAR) ∧
    sumBalances c = 100 + chainRewardCredits c.chain - chainRegularFees c.chain ∧
    (∀ address, address ≠ "genesis" → address ≠ "MINING_REWARD" →
      c.getBalance address = replayBalance address c.chain) := by
  induction h with
  | init txTs blockTs nonce0 =>
    refine ⟨?_, ?_, ?_⟩
    · intro pt hpt
      simp [initialController] at hpt
    · simp [sumBalances, initialController, updateBalance, mapGet, mapSet,
        chainRewardCredits, chainRegularFees, blockRewardCredits, blockRegularFees,
        Transaction.createGenesis]
    · intro addr h1 h2
      by_cases hs : addr = "satoshi"
      · subst hs
        simp [ChainController.getBalance, initialController, updateBalance, mapGet, mapSet,
          replayBalance, historyDelta, Transaction.createGenesis]
      · have hs' : ¬ ("satoshi" = addr) := fun hh => hs hh.symm
        have hg' : ¬ ("genesis" = addr) := fun hh => h1 hh.symm
        simp [ChainController.getBalance, initialController, updateBalance, mapGet, mapSet,
          replayBalance, historyDelta, Transaction.createGenesis, hs', hg']
  | submit c tx now hc hPt ih =>
    obtain ⟨hch, hbal, -, -⟩ := addTransactionToMempool_fields c tx now
    refine ⟨?_, ?_, ?_⟩
    · intro pt hpt
      rcases addTransactionToMempool_mem hpt with hmem | heq
      · exact ih.1 pt hmem
      · rw [heq]; exact hP tx hPt
    · unfold sumBalances
      rw [hbal, hch]
      exact ih.2.1
    · intro addr h1 h2
      unfold ChainController.getBalance
      rw [hbal, hch]
      exact ih.2.2 addr h1 h2
  | mineStep c c' b fuel a rTs bTs n0 hc hm ih =>
    obtain ⟨hchain, -, hbal, -, hmp, htxs, -, -, -⟩ := mineBlock_spec hm
    have hdrained := drainedPair_regular ih.1
    refine ⟨?_, ?_, ?_⟩
    · intro pt hpt
      rw [hmp] at hpt
      unfold drainedPair at hpt
      by_cases hpc : c.mempool.getPendingCount > 0
      · rw [if_pos hpc] at hpt
        unfold MempoolController.getTransactionsForBlock at hpt
        simp only at hpt
        exact ih.1 pt ((List.drop_sublist _ _).subset hpt)
      · rw [if_neg hpc] at hpt
        exact ih.1 pt hpt
    · unfold sumBalances
      rw [hbal]
      unfold processBlockTransactions
      rw [sum_processBlock, htxs, hchain]
      simp only [chainRewardCredits, chainRegularFees, List.map_append, List.sum_append,
        List.map_cons, List.sum_cons, List.map_nil, List.sum_nil, blockRewardCredits,
        blockRegularFees]
      rw [htxs]
      simp only [List.map_append, List.sum_append, List.map_cons, List.sum_cons,
        List.map_nil, List.sum_nil]
      rw [procSum_regular hdrained, rewardCredits_regular hdrained,
        regularFees_regular hdrained]
      have hrw : procSumDelta (Transaction.createReward a
          (miningReward + ((drainedPair c).1.map Transaction.fee).sum) rTs) =
          miningReward + ((drainedPair c).1.map Transaction.fee).sum := by
        simp [procSumDelta, Transaction.createReward]
      have hrw2 : (if (Transaction.createReward a
          (miningReward + ((drainedPair c).1.map Transaction.fee).sum) rTs).type =
            TransactionType.REWARD then
          (Transaction.createReward a
            (miningReward + ((drainedPair c).1.map Transaction.fee).sum) rTs).amount
          else 0) = miningReward + ((drainedPair c).1.map Transaction.fee).sum := by
        simp [Transaction.createReward]
      have hrw3 : (if (Transaction.createReward a
          (miningReward + ((drainedPair c).1.map Transaction.fee).sum) rTs).type =
            TransactionType.REGULAR then
          (Transaction.createReward a
            (miningReward + ((drainedPair c).1.map Transaction.fee).sum) rTs).fee
          else 0) = 0 := by
        simp [Transaction.createReward]
      rw [hrw, hrw2, hrw3]
      have hS := ih.2.1
      unfold sumBalances chainRewardCredits chainRegularFees at hS
      omega
    · intro addr h1 h2
      unfold ChainController.getBalance
      rw [hbal]
      unfold processBlockTransactions
      rw [getD_processBlock, hchain]
      simp only [replayBalance, List.map_append, List.sum_append, List.map_cons,
        List.sum_cons, List.map_nil, List.sum_nil]
      have hd : ((b.transactions).map (procDelta addr)).sum =
          ((b.transactions).map (historyDelta addr)).sum := by
        apply procDelta_list_eq
        intro t ht
        rw [htxs] at ht
        rcases List.mem_append.mp ht with ht | ht
        · exact Or.inl (hdrained t ht)
        · rw [List.mem_singleton] at ht
          subst ht
          exact Or.inr (Ne.symm h2)
      have hrep := ih.2.2 addr h1 h2
      unfold ChainController.getBalance replayBalance at hrep
      rw [hd, hrep]
      ring
  | setDiff c d hc ih =>
    exact ih

end CryptoSim

namespace CryptoSim

/-! ### Final entry of the balance history -/

theorem balanceHistoryAux_getLast (address : String) :
    ∀ (l : List Block) (b : Block) (bal : Int) (i : Nat),
    ∃ e : IBalanceHistory,
      (balanceHistoryAux address (b :: l) bal i).getLast? = some e ∧
      e.balance = bal + (b.transactions.map (historyDelta address)).sum +
        replayBalance address l ∧
      e.address = address := by
  intro l
  induction l with
  | nil =>
    intro b bal i
    refine ⟨⟨address, b.transactions.foldl (historyTxStep address) bal, b.ts, i⟩, ?_, ?_, rfl⟩
    · simp [balanceHistoryAux]
    · simp [foldl_historyTxStep, replayBalance]
  | cons b2 rest ih =>
    intro b bal i
    obtain ⟨e, he, hbal, haddr⟩ :=
      ih b2 (b.transactions.foldl (historyTxStep address) bal) (i + 1)
    refine ⟨e, ?_, ?_, haddr⟩
    · simp only [balanceHistoryAux]
      rw [List.getLast?_cons_cons]
      simp only [balanceHistoryAux] at he
      exact he
    · rw [hbal, foldl_historyTxStep]
      simp only [replayBalance, List.map_cons, List.sum_cons]
      ring

/-- In a pool sorted descending by priority, the last entry has minimal
priority. -/
theorem sortedDesc_getLast_le {l : List PendingTransaction} {x : PendingTransaction}
    (hs : sortedDesc l) (hx : l.getLast? = some x) :
    ∀ y ∈ l, x.priority ≤ y.priority := by
  induction l with
  | nil => simp at hx
  | cons a as ih =>
    intro y hy
    cases as with
    | nil =>
      simp at hx hy
      subst hx; subst hy
      exact le_refl _
    | cons b bs =>
      rw [List.getLast?_cons_cons] at hx
      have hhead := (List.pairwise_cons.mp hs).1
      have hs' : sortedDesc (b :: bs) := (List.pairwise_cons.mp hs).2
      rcases List.mem_cons.mp hy with hy | hy
      · subst hy
        exact hhead x (List.mem_of_getLast?_eq_some hx)
      · exact ih hs' hx y hy

end CryptoSim

namespace CryptoSim

/-! ### Concrete instances used by witnesses and counterexamples -/

/-- A concrete hash function under which mining succeeds immediately at
difficulty 4. -/
def H0 : HashFn := fun _ => "0000"

/-- A concrete hash function returning a nonzero digest. -/
def Hd : HashFn := fun _ => "d"

/-- A fresh engine with all clock/nonce parameters fixed to 0. -/
def cx0 : ChainController := initialController 0 0 0

/-- An unsigned REGULAR transaction: satoshi pays bob 10 with fee 1. -/
def txU : Transaction := ⟨10, "satoshi", "bob", 1, 0, .REGULAR, none⟩

/-- The engine after submitting `txU`. -/
def cx1 : ChainController := (cx0.addTransactionToMempool txU 0).2

/-- The engine after additionally mining one block (under `H0`). -/
def cx2 : ChainController :=
  ((ChainController.mineBlock H0 1 cx1 "miner" 0 0 0).map Prod.fst).getD cx0

/-- The block mined in `cx2`. -/
def cx2b : Block :=
  ((ChainController.mineBlock H0 1 cx1 "miner" 0 0 0).map Prod.snd).getD ⟨"", [], "", 0, 0, none⟩

theorem cx2_reaches : Reaches H0 (fun t => t.type = .REGULAR) cx2 :=
  Reaches.mineStep cx1 cx2 cx2b 1 "miner" 0 0 0
    (Reaches.submit cx0 txU 0 (Reaches.init 0 0 0) rfl) rfl

/-! ### Claims -/

/-- C3 (amended): a freshly constructed engine has chain length 1, the
balance of the **"satoshi"** identity (not "root") is 100, `isChainValid()`
returns true, and the pending-transaction count is 0. -/
theorem claim_C3_genesis (H : HashFn) (txTs blockTs nonce0 : Int) :
    (initialController txTs blockTs nonce0).getChainLength = 1 ∧
    (initialController txTs blockTs nonce0).getBalance "satoshi" = 100 ∧
    (initialController txTs blockTs nonce0).isChainValid H = true ∧
    (initialController txTs blockTs nonce0).getPendingTransactionCount = 0 := by
  refine ⟨rfl, ?_, rfl, rfl⟩
  simp [ChainController.getBalance, initialController, updateBalance, mapGet, mapSet]

/-- C3 counterexample: in a freshly constructed engine the balance of
"root" is 0, not 100 — the genesis identity is "satoshi". -/
theorem claim_C3_counterexample : cx0.getBalance "root" ≠ 100 := by decide

/-- C5: submitting a REGULAR transaction whose amount plus fee exceeds the
payer's balance returns false and leaves the whole controller state (chain,
mempool, balances) unchanged. -/
theorem claim_C5_insufficient_rejected (c : ChainController) (t : Transaction) (now : Int)
    (hreg : t.type = .REGULAR) (hlow : c.getBalance t.payer < t.amount + t.fee) :
    c.addTransactionToMempool t now = (false, c) := by
  have hval : (c.validateTransaction t).valid = false := by
    unfold ChainController.validateTransaction
    rw [if_neg (by rw [hreg]; rintro (h | h) <;> exact absurd h (by decide))]
    simp only
    rw [if_pos (show c.getBalance t.payer < t.getTotalCost from hlow)]
  unfold ChainController.addTransactionToMempool
  rw [if_neg (by rw [hval]; decide)]

theorem claim_C5_witness :
    cx0.addTransactionToMempool ⟨200, "satoshi", "bob", 0, 0, .REGULAR, none⟩ 0 =
      (false, cx0) :=
  claim_C5_insufficient_rejected cx0 ⟨200, "satoshi", "bob", 0, 0, .REGULAR, none⟩ 0 rfl
    (by decide)

/-- A throwaway block used to exercise the hash cache. -/
def bJunk : Block := ⟨"", [], "", 0, 0, none⟩

/-- C9 (amended): once a **nonempty** hash has been recorded via `setHash`,
the `hash` getter returns it unchanged, even after the nonce is mutated; an
empty recorded hash is falsy in JS and is treated as unset (the getter
recomputes). -/
theorem claim_C9_hash_frozen (H : HashFn) (b : Block) (h : String) (hne : h ≠ "") :
    Block.hash H (b.setHash h) = h ∧
    (∀ n : Int, Block.hash H { b.setHash h with nonce := n } = h) := by
  constructor
  · simp [Block.hash, Block.setHash, hne]
  · intro n
    simp [Block.hash, Block.setHash, hne]

theorem claim_C9_witness :
    Block.hash H0 (bJunk.setHash "abcd") = "abcd" ∧
    Block.hash H0 { bJunk.setHash "abcd" with nonce := 12345 } = "abcd" :=
  ⟨(claim_C9_hash_frozen H0 bJunk "abcd" (by decide)).1,
   (claim_C9_hash_frozen H0 bJunk "abcd" (by decide)).2 12345⟩

/-- C9 counterexample: recording the empty string via `setHash` is *not*
returned by the getter — JS truthiness treats the cached `''` as unset and
the getter recomputes the hash instead. -/
theorem claim_C9_counterexample :
    (bJunk.setHash "").hashCache = some "" ∧
    Block.hash Hd (bJunk.setHash "") = "d" ∧
    Block.hash Hd (bJunk.setHash "") ≠ "" :=
  ⟨rfl, rfl, by decide⟩

end CryptoSim

namespace CryptoSim

/-- C1 (amended): over any sequence of submitted REGULAR transactions and
mined blocks, the sum of all balances equals 100 plus the sum of all
REWARD amounts ever credited **minus the sum of the fees of all confirmed
REGULAR transactions** (the reward already contains those fees, so the
original claim double-counts them). -/
theorem claim_C1_conservation {H : HashFn} {c : ChainController}
    (h : Reaches H (fun t => t.type = .REGULAR) c) :
    sumBalances c = 100 + chainRewardCredits c.chain - chainRegularFees c.chain :=
  (reachesRegular_inv (fun _ ht => ht) h).2.1

theorem claim_C1_witness :
    sumBalances cx2 = 100 + chainRewardCredits cx2.chain - chainRegularFees cx2.chain :=
  claim_C1_conservation cx2_reaches

/-- C1 counterexample: after one fee-1 REGULAR transfer and one mined
block, the balances sum to 150 while 100 plus the REWARD amounts credited
is 151 — the claimed equality fails as soon as a fee is nonzero. -/
theorem claim_C1_counterexample :
    Reaches H0 (fun t => t.type = .REGULAR) cx2 ∧
    sumBalances cx2 = 150 ∧
    chainRewardCredits cx2.chain = 51 ∧
    sumBalances cx2 ≠ 100 + chainRewardCredits cx2.chain :=
  ⟨cx2_reaches, by decide, by decide, by decide⟩

/-- C6: mining on an empty mempool succeeds with a block holding exactly
one transaction — the REWARD of 50 (fixed reward plus zero fees) paying
the miner — appended to the chain, and the miner's balance rises by 50. -/
theorem claim_C6_coinbase {H : HashFn} {fuel : Nat} {c c' : ChainController} {b : Block}
    {a : String} {rTs bTs n0 : Int}
    (hempty : c.getPendingTransactionCount = 0)
    (hm : ChainController.mineBlock H fuel c a rTs bTs n0 = some (c', b)) :
    b.transactions = [Transaction.createReward a 50 rTs] ∧
    c'.chain = c.chain ++ [b] ∧
    c'.getBalance a = c.getBalance a + 50 := by
  have hpc : ¬ (c.mempool.getPendingCount > 0) := by
    unfold ChainController.getPendingTransactionCount at hempty
    omega
  obtain ⟨hchain, -, hbal, -, -, htxs, -, -, -⟩ := mineBlock_spec hm
  have hdp1 : (drainedPair c).1 = [] := by
    unfold drainedPair
    rw [if_neg hpc]
  have htx50 : b.transactions = [Transaction.createReward a 50 rTs] := by
    rw [htxs, hdp1]
    simp [miningReward]
  refine ⟨htx50, hchain, ?_⟩
  unfold ChainController.getBalance
  rw [hbal]
  unfold processBlockTransactions
  rw [getD_processBlock, htx50]
  simp [procDelta, Transaction.createReward]

/-- The engine after coinbase-only mining on a fresh chain (under `H0`). -/
def c6c : ChainController :=
  ((ChainController.mineBlock H0 1 cx0 "miner" 0 0 0).map Prod.fst).getD cx0

/-- The coinbase-only block mined in `c6c`. -/
def c6b : Block :=
  ((ChainController.mineBlock H0 1 cx0 "miner" 0 0 0).map Prod.snd).getD ⟨"", [], "", 0, 0, none⟩

theorem claim_C6_witness :
    c6b.transactions = [Transaction.createReward "miner" 50 0] ∧
    c6c.chain = cx0.chain ++ [c6b] ∧
    c6c.getBalance "miner" = cx0.getBalance "miner" + 50 :=
  @claim_C6_coinbase H0 1 cx0 c6c c6b "miner" 0 0 0 rfl rfl

end CryptoSim

namespace CryptoSim

/-- C7: after any sequence of public-API operations, every adjacent pair of
blocks satisfies `chain[i+1].prevHash = chain[i].hash`, and `isChainValid`
returns true exactly when every adjacent pair satisfies both that link
condition and the difficulty prefix condition on `chain[i+1].hash`, with
the difficulty read at validation time. -/
theorem claim_C7_chain_links {H : HashFn} {P : Transaction → Prop} {c : ChainController}
    (h : Reaches H P c) :
    (∀ i, (hi : i + 1 < c.chain.length) →
      (c.chain[i + 1]).prevHash = Block.hash H (c.chain[i])) ∧
    (c.isChainValid H = true ↔
      ∀ i, (hi : i + 1 < c.chain.length) →
        (c.chain[i + 1]).prevHash = Block.hash H (c.chain[i]) ∧
        (zeroTarget c.difficulty).isPrefixOf (Block.hash H (c.chain[i + 1])).data = true) := by
  obtain ⟨hne, hlink⟩ := reaches_chain h
  refine ⟨hlink, ?_⟩
  rcases hch : c.chain with _ | ⟨b0, rest⟩
  · exact absurd hch hne
  · unfold ChainController.isChainValid
    rw [hch]
    exact validFrom_iff H (zeroTarget c.difficulty) rest b0

theorem claim_C7_witness :
    (∀ i, (hi : i + 1 < cx2.chain.length) →
      (cx2.chain[i + 1]).prevHash = Block.hash H0 (cx2.chain[i])) ∧
    (cx2.isChainValid H0 = true ↔
      ∀ i, (hi : i + 1 < cx2.chain.length) →
        (cx2.chain[i + 1]).prevHash = Block.hash H0 (cx2.chain[i]) ∧
        (zeroTarget cx2.difficulty).isPrefixOf (Block.hash H0 (cx2.chain[i + 1])).data = true) :=
  claim_C7_chain_links cx2_reaches

/-- C10 (amended): for every address **other than the synthetic payers
"genesis" and "MINING_REWARD"**, the balance in the final entry of
`getBalanceHistory` equals `getBalance`; the replay debits those two
synthetic payers the total cost of every GENESIS/REWARD credit while the
incremental balance table does not, so they are excluded. -/
theorem claim_C10_history {H : HashFn} {P : Transaction → Prop} {c : ChainController}
    (hP : ∀ t, P t → t.type = .REGULAR) (h : Reaches H P c)
    (address : String) (h1 : address ≠ "genesis") (h2 : address ≠ "MINING_REWARD") :
    c.getBalanceHistory address ≠ [] ∧
    ((c.getBalanceHistory address).getLastD ⟨address, 0, 0, 0⟩).balance =
      c.getBalance address := by
  obtain ⟨hne, -⟩ := reaches_chain h
  have hrep := (reachesRegular_inv hP h).2.2 address h1 h2
  rcases hch : c.chain with _ | ⟨b0, rest⟩
  · exact absurd hch hne
  · obtain ⟨e, he, hbal, -⟩ := balanceHistoryAux_getLast address rest b0 0 0
    have hhist : c.getBalanceHistory address = balanceHistoryAux address (b0 :: rest) 0 0 := by
      unfold ChainController.getBalanceHistory
      rw [hch]
    constructor
    · rw [hhist]
      intro hnil
      rw [hnil] at he
      simp at he
    · rw [hhist, List.getLastD_eq_getLast?, he, Option.getD_some, hbal, hrep, hch]
      simp only [replayBalance, List.map_cons, List.sum_cons]
      ring

theorem claim_C10_witness :
    cx2.getBalanceHistory "bob" ≠ [] ∧
    ((cx2.getBalanceHistory "bob").getLastD ⟨"bob", 0, 0, 0⟩).balance =
      cx2.getBalance "bob" :=
  claim_C10_history (fun _ ht => ht) cx2_reaches "bob" (by decide) (by decide)

/-- C10 counterexample: already on a fresh engine, the final history entry
for the synthetic payer "genesis" carries balance −100 (the replay debits
the genesis payer), while the balance table reports 0. -/
theorem claim_C10_counterexample :
    ((cx0.getBalanceHistory "genesis").getLastD ⟨"genesis", 0, 0, 0⟩).balance = -100 ∧
    cx0.getBalance "genesis" = 0 ∧
    ((cx0.getBalanceHistory "genesis").getLastD ⟨"genesis", 0, 0, 0⟩).balance ≠
      cx0.getBalance "genesis" :=
  ⟨by decide, by decide, by decide⟩

end CryptoSim

namespace CryptoSim

/-- C4 (amended): `submitTransaction` performs no signature check at all —
REWARD/GENESIS bypass validation entirely, validation never reads the
signature field, and a REGULAR transaction passes validation exactly when
balance, amount and fee pass; signature verification happens only inside
`createTransaction`, at signing time. -/
theorem claim_C4_validation (c : ChainController) (t : Transaction) (sig : Option String) :
    ((t.type = .REWARD ∨ t.type = .GENESIS) → c.validateTransaction t = ⟨true, none⟩) ∧
    (c.validateTransaction { t with signature := sig } = c.validateTransaction t) ∧
    (t.type = .REGULAR →
      ((c.validateTransaction t).valid = true ↔
        t.getTotalCost ≤ c.getBalance t.payer ∧ 0 < t.amount ∧ 0 ≤ t.fee)) := by
  refine ⟨?_, ?_, ?_⟩
  · intro hT
    unfold ChainController.validateTransaction
    rw [if_pos hT]
  · rfl
  · intro hreg
    unfold ChainController.validateTransaction
    rw [if_neg (by rw [hreg]; rintro (h | h) <;> exact absurd h (by decide))]
    simp only
    split_ifs with h1 h2 h3 <;> simp <;> omega

theorem claim_C4_witness :
    cx0.validateTransaction (Transaction.createReward "miner" 50 0) = ⟨true, none⟩ ∧
    cx0.validateTransaction { txU with signature := some "s" } = cx0.validateTransaction txU ∧
    ((cx0.validateTransaction txU).valid = true ↔
      txU.getTotalCost ≤ cx0.getBalance txU.payer ∧ 0 < txU.amount ∧ 0 ≤ txU.fee) :=
  ⟨(claim_C4_validation cx0 (Transaction.createReward "miner" 50 0) none).1 (Or.inl rfl),
   (claim_C4_validation cx0 txU (some "s")).2.1,
   (claim_C4_validation cx0 txU none).2.2 rfl⟩

/-- C4 counterexample: a REGULAR transaction with **no signature at all**
is accepted into the mempool by the submission path — no signature is
required or verified there. -/
theorem claim_C4_counterexample :
    txU.type = .REGULAR ∧ txU.signature = none ∧
    (cx0.addTransactionToMempool txU 0).1 = true :=
  ⟨rfl, rfl, by decide⟩

/-- C8: with the pool sorted descending by priority, `drain(maxCount)`
returns the first `maxCount` entries (highest-priority end, in descending
priority order), keeps the rest in relative order, and draining more than
available returns everything and empties the pool. -/
theorem claim_C8_drain (m : MempoolController) (maxCount : Nat)
    (hs : sortedDesc m.pendingTransactions) :
    (m.getTransactionsForBlock maxCount).1 =
      (m.pendingTransactions.take maxCount).map PendingTransaction.transaction ∧
    ((m.getTransactionsForBlock maxCount).2).pendingTransactions =
      m.pendingTransactions.drop maxCount ∧
    sortedDesc (m.pendingTransactions.take maxCount) ∧
    (m.pendingTransactions.drop maxCount).Sublist m.pendingTransactions ∧
    (m.pendingTransactions.length ≤ maxCount →
      (m.getTransactionsForBlock maxCount).1 =
        m.pendingTransactions.map PendingTransaction.transaction ∧
      ((m.getTransactionsForBlock maxCount).2).pendingTransactions = []) := by
  refine ⟨rfl, rfl, ?_, List.drop_sublist _ _, ?_⟩
  · exact List.Pairwise.sublist (List.take_sublist _ _) hs
  · intro hle
    constructor
    · unfold MempoolController.getTransactionsForBlock
      simp only
      rw [List.take_of_length_le hle]
    · unfold MempoolController.getTransactionsForBlock
      simp only
      rw [List.drop_eq_nil_of_le hle]

/-- A sorted three-entry pool used by the drain witness. -/
def mW : MempoolController := ⟨[⟨txU, 2000⟩, ⟨txU, 1000⟩, ⟨txU, 500⟩], 100⟩

theorem claim_C8_witness :
    (mW.getTransactionsForBlock 5).1 = [txU, txU, txU] ∧
    ((mW.getTransactionsForBlock 5).2).pendingTransactions = [] := by
  have h := claim_C8_drain mW 5 (by unfold sortedDesc; decide)
  exact ⟨(h.2.2.2.2 (by decide)).1.trans rfl, (h.2.2.2.2 (by decide)).2⟩

end CryptoSim

namespace CryptoSim

/-- C2 (amended): when the pool is at capacity, `addTransaction` compares
the newcomer's **fee** against the lowest-priority resident's **priority
score** (`fee·1000/(ageSeconds+1)`, snapshotted at that resident's
insertion), not against its fee: it rejects with no mutation when
`fee ≤ lowest.priority` and otherwise pops the last (lowest-priority)
entry, pushes the newcomer and re-sorts.  In particular a fee-2 newcomer
does *not* evict a freshly inserted fee-1 resident, whose priority is
about 1000. -/
theorem claim_C2_mempool_eviction (m : MempoolController) (t : Transaction) (now : Int)
    (lowest : PendingTransaction)
    (hfull : m.pendingTransactions.length ≥ m.maxPoolSize)
    (hlast : m.pendingTransactions.getLast? = some lowest) :
    ((t.fee : ℚ) ≤ lowest.priority → m.addTransaction t now = (false, m)) ∧
    (lowest.priority < (t.fee : ℚ) →
      m.addTransaction t now = (true, { m with pendingTransactions := MempoolController.sortByPriority (m.pendingTransactions.dropLast ++ [⟨t, MempoolController.calculatePriority t now⟩]) })) ∧
    (sortedDesc m.pendingTransactions →
      ∀ pt ∈ m.pendingTransactions, lowest.priority ≤ pt.priority) := by
  refine ⟨?_, ?_, ?_⟩
  · intro hle
    unfold MempoolController.addTransaction
    rw [if_pos hfull]
    simp only [hlast]
    rw [if_pos hle]
  · intro hlt
    unfold MempoolController.addTransaction
    rw [if_pos hfull]
    simp only [hlast]
    rw [if_neg (not_le.mpr hlt)]
  · intro hsort
    exact sortedDesc_getLast_le hsort hlast

/-- A full one-slot pool holding one resident of priority 1000. -/
def ptW : PendingTransaction := ⟨txU, 1000⟩

/-- A capacity-1 mempool at capacity. -/
def mFull : MempoolController := ⟨[ptW], 1⟩

/-- A transaction whose fee (2000) exceeds the resident's priority. -/
def txHi : Transaction := ⟨10, "x", "y", 2000, 0, .REGULAR, none⟩

/-- A fee-2 REGULAR transaction. -/
def txF2 : Transaction := ⟨1, "carol", "dave", 2, 0, .REGULAR, none⟩

theorem claim_C2_witness :
    mFull.addTransaction txF2 0 = (false, mFull) ∧
    mFull.addTransaction txHi 0 = (true, { mFull with pendingTransactions := MempoolController.sortByPriority (mFull.pendingTransactions.dropLast ++ [⟨txHi, MempoolController.calculatePriority txHi 0⟩]) }) :=
  ⟨(claim_C2_mempool_eviction mFull txF2 0 ptW (by decide) rfl).1 (by norm_num [txF2, ptW]),
   (claim_C2_mempool_eviction mFull txHi 0 ptW (by decide) rfl).2.1 (by norm_num [txHi, ptW])⟩

/-- An empty capacity-1 mempool. -/
def mcx0 : MempoolController := ⟨[], 1⟩

/-- A fee-1 REGULAR transaction with timestamp 0. -/
def txF1 : Transaction := ⟨1, "alice", "bob", 1, 0, .REGULAR, none⟩

/-- The capacity-1 pool after inserting the fee-1 transaction at time 0. -/
def mcx1 : MempoolController := (mcx0.addTransaction txF1 0).2

theorem calculatePriority_txF1 : MempoolController.calculatePriority txF1 0 = 1000 := by
  show ((1 : Int) : ℚ) * 1000 / ((((0 : Int) - (0 : Int) : Int) : ℚ) / 1000 + 1) = 1000
  norm_num

theorem addTransaction_full_singleton (pt : PendingTransaction) (t : Transaction) (now : Int)
    (hle : (t.fee : ℚ) ≤ pt.priority) :
    MempoolController.addTransaction ⟨[pt], 1⟩ t now = (false, ⟨[pt], 1⟩) := by
  unfold MempoolController.addTransaction
  rw [if_pos (by simp)]
  simp only [List.getLast?_singleton]
  rw [if_pos hle]

/-- C2 counterexample: pool of capacity 1 filled (by the code itself) with
one fee-1 transaction; submitting a fee-2 transaction is rejected and the
pool is unchanged — the code compares the fee 2 against the resident's
priority 1000, so the claimed fee-vs-fee eviction does not happen. -/
theorem claim_C2_counterexample :
    mcx1.pendingTransactions.length = mcx1.maxPoolSize ∧
    (∀ pt ∈ mcx1.pendingTransactions, pt.transaction.fee = 1) ∧
    txF2.fee = 2 ∧
    mcx1.addTransaction txF2 0 = (false, mcx1) := by
  have hm1 : mcx1 = ⟨[⟨txF1, MempoolController.calculatePriority txF1 0⟩], 1⟩ := rfl
  refine ⟨rfl, ?_, rfl, ?_⟩
  · intro pt hpt
    rw [hm1] at hpt
    simp only [List.mem_singleton] at hpt
    rw [hpt]
    rfl
  · rw [hm1]
    exact addTransaction_full_singleton ⟨txF1, MempoolController.calculatePriority txF1 0⟩
      txF2 0 (by rw [show (⟨txF1, MempoolController.calculatePriority txF1 0⟩ :
        PendingTransaction).priority = 1000 from calculatePriority_txF1]; norm_num [txF2])

end CryptoSim
